import Mathlib

/-
Verification of the text-similarity measurement subsystem
(`unstructured/metrics/text_extraction.py`): the weighted edit-distance
scorer `calculate_edit_distance`, the punctuation stripper
`remove_punctuation`, and the tokenizing word counter `bag_of_words`.

Python exceptions are modelled with `Except PyError`; the functions under
test are translated as executable Lean definitions, with machine-level
concerns (float division) represented exactly over `Rat` — all numeric
values exercised by the spec's concrete scenarios are exactly
representable in binary floating point, so the rational model agrees
with the Python float computation on them.

The Unicode "general category starts with P" classifier used by
`remove_punctuation` (the `unicodedata` library) is left as an explicit
parameter `catP : Char → Bool` of the translated functions: every general
theorem below is proved for an arbitrary classifier, so nothing depends
on the shape of the character table.  Concrete test inputs are pure
ASCII, for which the classifier is pinned down exactly by `asciiP`.
-/

/-- Python exceptions that the translated code can raise.
`valueError` carries the formatted message string; `zeroDivisionError`
models `int / 0`; `keyError` models `del tbl[k]` on a missing key. -/
inductive PyError where
  | valueError (msg : String)
  | zeroDivisionError
  | keyError
deriving DecidableEq

deriving instance DecidableEq for Except

/-- Weighted Levenshtein distance, the classic dynamic-programming
recurrence generalized to non-unit operation costs, as computed by
`rapidfuzz.distance.Levenshtein.distance(output, source, weights=(wi, wd, ws))`
with `wi` the insertion cost, `wd` the deletion cost and `ws` the
substitution cost (operations transform the first string into the second). -/
def levRec (wi wd ws : Nat) : List Char → List Char → Nat
  | [], t => wi * t.length
  | _ :: s, [] => wd + levRec wi wd ws s []
  | a :: s, b :: t =>
      min (wd + levRec wi wd ws s (b :: t))
        (min (wi + levRec wi wd ws (a :: s) t)
          ((if a = b then 0 else ws) + levRec wi wd ws s t))
termination_by s t => s.length + t.length
decreasing_by all_goals simp_arith

/-- One row update of the dynamic-programming table for `levRec`.
`prev` lists the distances from a fixed first string `s` to every suffix
of `t` (longest suffix first); the result lists the distances from
`a :: s` to every suffix of `t`. -/
def stepRow (wi wd ws : Nat) (a : Char) : List Char → List Nat → List Nat
  | [], p :: _ => [wd + p]
  | [], [] => []
  | b :: t, p :: prow =>
      let rest := stepRow wi wd ws a t prow
      min (wd + p) (min (wi + rest.headD 0) ((if a = b then 0 else ws) + prow.headD 0))
        :: rest
  | _ :: _, [] => []

/-- The first DP row: distances from `[]` to every suffix of `t`
(longest first), i.e. `wi * (length of the suffix)`. -/
def row0 (wi : Nat) : List Char → List Nat
  | [] => [0]
  | _ :: t => wi * (t.length + 1) :: row0 wi t

/-- Efficient (row-by-row) weighted Levenshtein distance; proved equal to
the recurrence `levRec` below. -/
def levDP (wi wd ws : Nat) (s t : List Char) : Nat :=
  (s.foldr (fun a row => stepRow wi wd ws a t row) (row0 wi t)).headD 0

/-- The reference row: distances from `s` to every suffix of `t`,
longest suffix first. -/
def rowSpec (wi wd ws : Nat) (s : List Char) : List Char → List Nat
  | [] => [levRec wi wd ws s []]
  | b :: t => levRec wi wd ws s (b :: t) :: rowSpec wi wd ws s t

/-- Python's builtin `min` on two numbers: the second argument is taken
only when it is strictly smaller. -/
def pyMin (x y : Rat) : Rat := if y < x then y else x

/-- Python's builtin `max` on two numbers: the second argument is taken
only when it is strictly larger. -/
def pyMax (x y : Rat) : Rat := if x < y then y else x

/-- The `ValueError` message raised for an invalid `return_as`:
`"Invalid return value type. Expected one of: %s" % return_types` with
`return_types = ["score", "distance"]`, i.e. the Python `str()` rendering
of that list interpolated into the format string. -/
def invalidReturnMsg : String :=
  "Invalid return value type. Expected one of: [\x27score\x27, \x27distance\x27]"

/-- Translation of `calculate_edit_distance(output, source, weights, return_as)`.
Mirrors the source line by line: validate `return_as` against
`["score", "distance"]`, compute the weighted Levenshtein distance, divide
by `len(source)` (a `ZeroDivisionError` when the source is empty, before
either return branch), clamp the ratio into `[0, 1]`, then return
`1 - ratio` for `"score"` or the raw distance for `"distance"`.
The trailing `return 0.0` fallthrough of the Python code is kept. -/
def calculate_edit_distance (output source : String)
    (weights : Nat × Nat × Nat) (return_as : String) : Except PyError Rat :=
  if return_as ∉ ["score", "distance"] then
    .error (.valueError invalidReturnMsg)
  else
    let distance := levDP weights.1 weights.2.1 weights.2.2 output.data source.data
    let char_len := source.length
    if char_len = 0 then
      .error .zeroDivisionError
    else
      let bounded_percentage_distance : Rat :=
        pyMin (pyMax ((distance : Rat) / (char_len : Rat)) 0) 1
      if return_as = "score" then .ok (1 - bounded_percentage_distance)
      else if return_as = "distance" then .ok (distance : Rat)
      else .ok 0

/-- Python's `round(x, 2)` on an exact value: round `100 * x` to the
nearest integer, ties to the even integer (banker's rounding), then
divide back by `100`. -/
def round2 (x : Rat) : Rat :=
  let y := x * 100
  let f : Int := ⌊y⌋
  let frac := y - (f : Rat)
  let n : Int :=
    if frac < 1 / 2 then f
    else if 1 / 2 < frac then f + 1
    else if f % 2 = 0 then f else f + 1
  (n : Rat) / 100

/-- Whether `pre` is a prefix of `l`, as a boolean. -/
def beginsWith : List Char → List Char → Bool
  | [], _ => true
  | _ :: _, [] => false
  | a :: as, b :: bs => a == b && beginsWith as bs

/-- Whether `needle` occurs contiguously inside `hay`, as a boolean:
the substring test used to state what an error message mentions. -/
def occursIn (needle : List Char) : List Char → Bool
  | [] => beginsWith needle []
  | b :: bs => beginsWith needle (b :: bs) || occursIn needle bs

/-- Python's `str.lower`, exact on the ASCII range (all concrete inputs
of the spec are ASCII). -/
def pyLower (c : Char) : Char :=
  if 'A' ≤ c ∧ c ≤ 'Z' then Char.ofNat (c.toNat + 32) else c

/-- Lower-case an entire string with `pyLower`. -/
def pyLowerStr (s : String) : String := ⟨s.data.map pyLower⟩

/-- The whitespace test of Python's no-argument `str.split`, exact on
the ASCII range. -/
def pyIsSpace (c : Char) : Bool :=
  c == ' ' || c == '\t' || c == '\n' || c == '\x0b' || c == '\x0c' || c == '\r'

/-- Worker for `pySplit`: `acc` holds the characters of the current
fragment in reverse.  Runs of whitespace produce no empty fragments,
exactly like Python's `str.split()` with no separator. -/
def pySplitAux : List Char → List Char → List String
  | [], acc => if acc.isEmpty then [] else [⟨acc.reverse⟩]
  | c :: cs, acc =>
      if pyIsSpace c then
        if acc.isEmpty then pySplitAux cs [] else ⟨acc.reverse⟩ :: pySplitAux cs []
      else pySplitAux cs (c :: acc)

/-- Python's `str.split()` with no separator: split on runs of
whitespace, discarding empty fragments. -/
def pySplit (l : List Char) : List String := pySplitAux l []

/-- The characters of the Basic Latin (ASCII) block whose Unicode
general category starts with "P" (Pc, Pd, Ps, Pe, Po): the restriction
of `unicodedata.category(c).startswith("P")` to ASCII.  `$ + < = > ^` and
backquote, tilde and vertical bar are symbol categories (S*), not
punctuation, and are absent. -/
def asciiP (c : Char) : Bool :=
  [ '!', '"', '#', '%', '&', '\x27', '(', ')', '*', ',', '-', '.', '/',
    ':', ';', '?', '@', '[', '\\', ']', '_', '\x7b', '\x7d'].contains c

/-- The exclusion set `["-", "'"]` that `bag_of_words` passes to
`remove_punctuation`, in the order of the Python list. -/
def excludeList : List Char := ['-', '\x27']

/-- The deletion loop of `remove_punctuation`: `del tbl[ord(punct)]` for
each `punct` of the exclusion list.  The table initially holds exactly
the code points satisfying `catP`; `deleted` accumulates the keys
removed so far.  Deleting a key that is absent — either because the
character is not "P"-category or because it was already deleted —
raises `KeyError`. -/
def delExcls (catP : Char → Bool) : List Char → List Char → Except PyError (List Char)
  | deleted, [] => .ok deleted
  | deleted, p :: rest =>
      if catP p && !(deleted.contains p) then delExcls catP (p :: deleted) rest
      else .error .keyError

/-- Translation of `remove_punctuation(s, exclude_punctuation)`: build the
deletion table of all "P"-category code points, remove the excluded
entries (`KeyError` if one is absent), then `str.translate`, which keeps
exactly the characters not in the table.  The table over all of
`range(sys.maxunicode)` is represented by its membership predicate
`catP`, with the performed deletions tracked explicitly; `None` and the
empty list are both falsy, so neither performs any deletion. -/
def remove_punctuation (catP : Char → Bool) (s : String)
    (exclude_punctuation : Option (List Char)) : Except PyError String :=
  let excl := match exclude_punctuation with
    | none => []
    | some l => l
  match delExcls catP [] excl with
  | .error e => .error e
  | .ok deleted => .ok ⟨s.data.filter fun c => !(catP c && !(deleted.contains c))⟩

/-- The normalization step of the spec, stated directly: keep exactly the
characters that are not "P"-category punctuation or belong to the
exclusion set `{-, '}`. -/
def stripPunct (catP : Char → Bool) (s : String) : String :=
  ⟨s.data.filter fun c => !(catP c) || excludeList.contains c⟩

/-- Dictionary update `bow[w] += 1 if w in bow else bow[w] = 1`,
on an insertion-ordered association list (Python dicts preserve
insertion order). -/
def bumpWord (bow : List (String × Nat)) (w : String) : List (String × Nat) :=
  match bow with
  | [] => [(w, 1)]
  | (k, v) :: rest => if k = w then (k, v + 1) :: rest else (k, v) :: bumpWord rest w

/-- Concatenation of a list of fragments without separators, the
`incorrect_word += words[j]` accumulation of the source. -/
def concatAll (l : List String) : String := ⟨(l.map String.data).flatten⟩

/-- The cursor loop of `bag_of_words`, fuelled.  A fragment of length
> 1 is counted and the cursor advances by one; otherwise the inner loop
collects the contiguous run of length-1 fragments starting at the
cursor, counts its concatenation only when that concatenation has
length exactly 1, and jumps the cursor past the run.  An empty fragment
would leave the cursor unmoved — the Python `while` would loop forever —
which the model renders as running out of fuel (`none`). -/
def bowLoop : Nat → List (String × Nat) → List String → Option (List (String × Nat))
  | 0, _, _ => none
  | _ + 1, bow, [] => some bow
  | fuel + 1, bow, w :: rest =>
      if w.length > 1 then bowLoop fuel (bumpWord bow w) rest
      else
        let run := List.takeWhile (fun x => x.length == 1) (w :: rest)
        let rest' := List.dropWhile (fun x => x.length == 1) (w :: rest)
        let incorrect_word := concatAll run
        if incorrect_word.length = 1 then bowLoop fuel (bumpWord bow incorrect_word) rest'
        else bowLoop fuel bow rest'

/-- Translation of `bag_of_words(text)`: lower-case, strip punctuation
except `-` and `'`, split on whitespace, then run the cursor loop.  The
fuel `words.length + 1` is enough for every reachable input (proved
below); `.ok none` would mean the Python loop diverges. -/
def bag_of_words (catP : Char → Bool) (text : String) :
    Except PyError (Option (List (String × Nat))) :=
  match remove_punctuation catP (pyLowerStr text) (some excludeList) with
  | .error e => .error e
  | .ok cleaned =>
      let words := pySplit cleaned.data
      .ok (bowLoop (words.length + 1) [] words)

/-- The token stream described by §4.2 of the spec, written from its
words: walking the fragments left to right, a fragment of length > 1 is
kept as a token; at a fragment of length exactly 1 the maximal
contiguous run of length-1 fragments starting there is consumed, kept
as one single-character token when the run has exactly one member and
discarded entirely otherwise; an empty fragment (a run that merged 0
characters) is discarded.  The bag of words is the multiset of these
tokens. -/
def specTokens : List String → List String
  | [] => []
  | w :: rest =>
      if w.length > 1 then w :: specTokens rest
      else if w.length = 1 then
        let run := w :: List.takeWhile (fun x => x.length == 1) rest
        let rest' := List.dropWhile (fun x => x.length == 1) rest
        if run.length = 1 then run ++ specTokens rest' else specTokens rest'
      else specTokens rest
termination_by l => l.length
decreasing_by
  all_goals
    have h := (List.dropWhile_sublist (l := rest) (fun x => x.length == 1)).length_le
    simp only [List.length_cons]
    omega

/-- The fragment sequence that `bag_of_words` tokenizes: the text
lower-cased, stripped of punctuation except `-` and `'`, and split on
whitespace. -/
def cleanedWords (catP : Char → Bool) (text : String) : List String :=
  pySplit (stripPunct catP (pyLowerStr text)).data

/-- Dictionary lookup with default 0: the count recorded for `k`. -/
def lookupCount : List (String × Nat) → String → Nat
  | [], _ => 0
  | (k, v) :: rest, w => if k = w then v else lookupCount rest w

/- ----------------------------------------------------------------- -/
/- Theorems.                                                          -/
/- ----------------------------------------------------------------- -/

theorem rowSpec_cons_shape (wi wd ws : Nat) (s t : List Char) :
    ∃ tl, rowSpec wi wd ws s t = levRec wi wd ws s t :: tl := by
  cases t <;> exact ⟨_, rfl⟩

theorem row0_eq_rowSpec (wi wd ws : Nat) (t : List Char) :
    row0 wi t = rowSpec wi wd ws [] t := by
  induction t with
  | nil => simp [row0, rowSpec, levRec]
  | cons b t ih => simp [row0, rowSpec, levRec, ih]

theorem stepRow_rowSpec (wi wd ws : Nat) (a : Char) (s t : List Char) :
    stepRow wi wd ws a t (rowSpec wi wd ws s t) = rowSpec wi wd ws (a :: s) t := by
  induction t with
  | nil => simp [stepRow, rowSpec, levRec]
  | cons b t ih =>
      obtain ⟨tl, htl⟩ := rowSpec_cons_shape wi wd ws s t
      obtain ⟨tl2, htl2⟩ := rowSpec_cons_shape wi wd ws (a :: s) t
      have ih2 := ih
      rw [htl, htl2] at ih2
      simp only [rowSpec, stepRow, htl, htl2, ih2]
      simp [levRec]

theorem levDP_eq_levRec (wi wd ws : Nat) (s t : List Char) :
    levDP wi wd ws s t = levRec wi wd ws s t := by
  have hfold : s.foldr (fun a row => stepRow wi wd ws a t row) (row0 wi t)
      = rowSpec wi wd ws s t := by
    induction s with
    | nil => simpa using row0_eq_rowSpec wi wd ws t
    | cons a s ih => simp [List.foldr, ih, stepRow_rowSpec]
  obtain ⟨tl, htl⟩ := rowSpec_cons_shape wi wd ws s t
  simp [levDP, hfold, htl]

theorem levRec_self (wi wd ws : Nat) (x : List Char) :
    levRec wi wd ws x x = 0 := by
  induction x with
  | nil => simp [levRec]
  | cons a s ih => simp [levRec, ih]

theorem pyMin_eq_min (x y : Rat) : pyMin x y = min x y := by
  simp only [pyMin, min_def]
  rcases lt_trichotomy x y with h | h | h
  · rw [if_neg (not_lt_of_lt h), if_pos h.le]
  · simp [h]
  · rw [if_pos h, if_neg (not_le_of_lt h)]

theorem pyMax_eq_max (x y : Rat) : pyMax x y = max x y := by
  simp only [pyMax, max_def]
  rcases lt_trichotomy x y with h | h | h
  · rw [if_pos h, if_pos h.le]
  · simp [h]
  · rw [if_neg (not_lt_of_lt h), if_neg (not_le_of_lt h)]

theorem mk_ne_empty_of_ne_nil {l : List Char} (h : l ≠ []) :
    (⟨l⟩ : String) ≠ "" := by
  intro hc
  exact h (congrArg String.data hc)

theorem length_ne_zero_of_ne_empty {s : String} (h : s ≠ "") : s.length ≠ 0 := by
  intro h0
  apply h
  apply String.ext
  have hd : s.data.length = 0 := h0
  simpa using List.length_eq_zero.mp hd

theorem length_pos_of_ne_empty {s : String} (h : s ≠ "") : 0 < s.length :=
  Nat.pos_of_ne_zero (length_ne_zero_of_ne_empty h)

theorem pySplitAux_ne_empty :
    ∀ (cs acc : List Char) (w : String), w ∈ pySplitAux cs acc → w ≠ "" := by
  intro cs
  induction cs with
  | nil =>
      intro acc w hw
      by_cases ha : acc.isEmpty
      · simp [pySplitAux, ha] at hw
      · simp only [pySplitAux, if_neg ha, List.mem_singleton] at hw
        subst hw
        exact mk_ne_empty_of_ne_nil
          (by simpa using (List.isEmpty_iff (l := acc)).not.mp ha)
  | cons c cs ih =>
      intro acc w hw
      by_cases hs : pyIsSpace c
      · by_cases ha : acc.isEmpty
        · rw [pySplitAux, if_pos hs, if_pos ha] at hw
          exact ih [] w hw
        · rw [pySplitAux, if_pos hs, if_neg ha] at hw
          rcases List.mem_cons.mp hw with hw | hw
          · subst hw
            exact mk_ne_empty_of_ne_nil
              (by simpa using (List.isEmpty_iff (l := acc)).not.mp ha)
          · exact ih [] w hw
      · rw [pySplitAux, if_neg hs] at hw
        exact ih (c :: acc) w hw

theorem pySplit_ne_empty {l : List Char} {w : String} (hw : w ∈ pySplit l) :
    w ≠ "" :=
  pySplitAux_ne_empty l [] w hw

theorem lookupCount_bumpWord (bow : List (String × Nat)) (w k : String) :
    lookupCount (bumpWord bow w) k
      = lookupCount bow k + if w = k then 1 else 0 := by
  induction bow with
  | nil =>
      by_cases h : w = k <;> simp [bumpWord, lookupCount, h]
  | cons p rest ih =>
      obtain ⟨k', v⟩ := p
      by_cases hk : k' = w
      · subst hk
        by_cases h : k' = k
        · simp [bumpWord, lookupCount, h]
        · simp [bumpWord, lookupCount, h]
      · by_cases h : k' = k
        · subst h
          have hw : ¬ w = k' := fun hc => hk hc.symm
          simp [bumpWord, lookupCount, hk, hw]
        · simp [bumpWord, lookupCount, hk, h, ih]

theorem bumpWord_mem (bow : List (String × Nat)) (w k : String) (v : Nat)
    (h : (k, v) ∈ bumpWord bow w) : (∃ v', (k, v') ∈ bow) ∨ k = w := by
  induction bow with
  | nil =>
      simp [bumpWord] at h
      exact Or.inr h.1
  | cons p rest ih =>
      obtain ⟨k', v'⟩ := p
      by_cases hk : k' = w
      · subst hk
        rw [bumpWord, if_pos rfl] at h
        rcases List.mem_cons.mp h with h | h
        · have hk2 : k = k' := (Prod.ext_iff.mp h).1
          exact Or.inl ⟨v', by simp [hk2]⟩
        · exact Or.inl ⟨v, List.mem_cons_of_mem _ h⟩
      · rw [bumpWord, if_neg hk] at h
        rcases List.mem_cons.mp h with h | h
        · exact Or.inl ⟨v, by simp [h]⟩
        · rcases ih h with ⟨v'', hv⟩ | h
          · exact Or.inl ⟨v'', List.mem_cons_of_mem _ hv⟩
          · exact Or.inr h

theorem concatAll_length (l : List String) :
    (concatAll l).length = (l.map String.length).sum := by
  show (l.map String.data).flatten.length = _
  rw [List.length_flatten, List.map_map]
  rfl

theorem sum_lengths_of_all_one :
    ∀ (l : List String), (∀ x ∈ l, x.length = 1) →
      (l.map String.length).sum = l.length := by
  intro l
  induction l with
  | nil => simp
  | cons x xs ih =>
      intro h
      have hx := h x (List.mem_cons_self x xs)
      have hxs := ih fun y hy => h y (List.mem_cons_of_mem x hy)
      simp [hx, hxs, Nat.add_comm]

theorem concatAll_single (w : String) : concatAll [w] = w := by
  cases w
  simp [concatAll]

theorem specTokens_cons_big {w : String} {rest : List String} (hw : 1 < w.length) :
    specTokens (w :: rest) = w :: specTokens rest := by
  simp only [specTokens]
  rw [if_pos hw]

theorem specTokens_cons_one {w : String} {rest : List String} (hw1 : w.length = 1) :
    specTokens (w :: rest) =
      if (w :: List.takeWhile (fun x => x.length == 1) rest).length = 1 then
        (w :: List.takeWhile (fun x => x.length == 1) rest)
          ++ specTokens (List.dropWhile (fun x => x.length == 1) rest)
      else specTokens (List.dropWhile (fun x => x.length == 1) rest) := by
  have hw : ¬ 1 < w.length := by omega
  simp only [specTokens]
  rw [if_neg hw, if_pos hw1]

theorem delExcls_keyError (catP : Char → Bool) :
    ∀ (excl deleted : List Char) (c : Char), c ∈ excl → catP c = false →
      delExcls catP deleted excl = .error .keyError := by
  intro excl
  induction excl with
  | nil =>
      intro deleted c hc
      simp at hc
  | cons p rest ih =>
      intro deleted c hc hcat
      rcases List.mem_cons.mp hc with rfl | hc
      · simp [delExcls, hcat]
      · by_cases hp : (catP p && !(deleted.contains p)) = true
        · simp only [delExcls]
          rw [if_pos hp]
          exact ih (p :: deleted) c hc hcat
        · simp only [delExcls]
          rw [if_neg hp]

theorem filter_fun_no_deletions (catP : Char → Bool) :
    (fun c => !(catP c && !(([] : List Char).contains c))) = fun c => !(catP c) := by
  funext c
  simp

theorem remove_punctuation_no_excl (catP : Char → Bool) (s : String) :
    remove_punctuation catP s none = .ok ⟨s.data.filter fun c => !(catP c)⟩ ∧
    remove_punctuation catP s (some []) = .ok ⟨s.data.filter fun c => !(catP c)⟩ := by
  constructor <;>
    simp [remove_punctuation, delExcls, filter_fun_no_deletions catP]

theorem delExcls_excludeList (catP : Char → Bool)
    (h1 : catP '-' = true) (h2 : catP '\x27' = true) :
    delExcls catP [] excludeList = .ok ['\x27', '-'] := by
  simp [delExcls, excludeList, h1, h2, List.contains_cons, List.contains_nil]

theorem remove_punctuation_strip (catP : Char → Bool) (s : String)
    (h1 : catP '-' = true) (h2 : catP '\x27' = true) :
    remove_punctuation catP s (some excludeList) = .ok (stripPunct catP s) := by
  have hfun : ∀ c, (!(catP c && !((['\x27', '-'] : List Char).contains c)))
      = (!(catP c) || excludeList.contains c) := by
    intro c
    simp only [excludeList, List.contains_cons, List.contains_nil]
    cases catP c <;> cases hc1 : c == '\x27' <;> cases hc2 : c == '-' <;>
      simp [hc1, hc2]
  simp only [remove_punctuation, delExcls_excludeList catP h1 h2, stripPunct]
  rw [List.filter_congr fun c _ => hfun c]

theorem remove_punctuation_excludeList_error (catP : Char → Bool) (s : String)
    (h : ¬ (catP '-' = true ∧ catP '\x27' = true)) :
    remove_punctuation catP s (some excludeList) = .error .keyError := by
  by_cases h1 : catP '-' = true
  · have h2 : catP '\x27' = false := by
      cases hb : catP '\x27'
      · rfl
      · exact absurd ⟨h1, hb⟩ h
    have hdel := delExcls_keyError catP excludeList [] '\x27'
      (by simp [excludeList]) h2
    simp [remove_punctuation, hdel]
  · have h1' : catP '-' = false := by
      cases hb : catP '-'
      · rfl
      · exact absurd hb h1
    have hdel := delExcls_keyError catP excludeList [] '-'
      (by simp [excludeList]) h1'
    simp [remove_punctuation, hdel]

theorem bowLoop_keys :
    ∀ (fuel : Nat) (words : List String) (bow r : List (String × Nat)),
      bowLoop fuel bow words = some r →
      ∀ k v, (k, v) ∈ r →
        (∃ v', (k, v') ∈ bow) ∨ k.length = 1 ∨ (1 < k.length ∧ k ∈ words) := by
  intro fuel
  induction fuel with
  | zero =>
      intro words bow r h
      simp [bowLoop] at h
  | succ fuel ih =>
      intro words bow r h k v hkv
      cases words with
      | nil =>
          simp only [bowLoop, Option.some.injEq] at h
          subst h
          exact Or.inl ⟨v, hkv⟩
      | cons w rest =>
          by_cases hw : 1 < w.length
          · simp only [bowLoop] at h
            rw [if_pos hw] at h
            rcases ih rest (bumpWord bow w) r h k v hkv with ⟨v', hv⟩ | h1 | ⟨hl, hm⟩
            · rcases bumpWord_mem bow w k v' hv with hb | hk
              · exact Or.inl hb
              · subst hk
                exact Or.inr (Or.inr ⟨hw, List.mem_cons_self _ _⟩)
            · exact Or.inr (Or.inl h1)
            · exact Or.inr (Or.inr ⟨hl, List.mem_cons_of_mem _ hm⟩)
          · simp only [bowLoop] at h
            rw [if_neg hw] at h
            by_cases hiw :
                (concatAll (List.takeWhile (fun x => x.length == 1) (w :: rest))).length = 1
            · rw [if_pos hiw] at h
              rcases ih _ _ r h k v hkv with ⟨v', hv⟩ | h1 | ⟨hl, hm⟩
              · rcases bumpWord_mem _ _ _ _ hv with hb | hk
                · exact Or.inl hb
                · subst hk
                  exact Or.inr (Or.inl hiw)
              · exact Or.inr (Or.inl h1)
              · exact Or.inr (Or.inr ⟨hl, (List.dropWhile_sublist _).mem hm⟩)
            · rw [if_neg hiw] at h
              rcases ih _ _ r h k v hkv with h0 | h1 | ⟨hl, hm⟩
              · exact Or.inl h0
              · exact Or.inr (Or.inl h1)
              · exact Or.inr (Or.inr ⟨hl, (List.dropWhile_sublist _).mem hm⟩)

theorem bowLoop_run :
    ∀ (fuel : Nat) (words : List String) (bow : List (String × Nat)),
      (∀ w ∈ words, w ≠ "") → words.length < fuel →
      ∃ r, bowLoop fuel bow words = some r ∧
        ∀ k, lookupCount r k = lookupCount bow k + (specTokens words).count k := by
  intro fuel
  induction fuel with
  | zero =>
      intro words bow _ hlt
      omega
  | succ fuel ih =>
      intro words bow hne hlt
      cases words with
      | nil =>
          refine ⟨bow, rfl, fun k => ?_⟩
          simp [specTokens]
      | cons w rest =>
          have hrest_ne : ∀ x ∈ rest, x ≠ "" :=
            fun x hx => hne x (List.mem_cons_of_mem _ hx)
          by_cases hw : 1 < w.length
          · have hrest_lt : rest.length < fuel := by
              simp only [List.length_cons] at hlt
              omega
            obtain ⟨r, hr, hcount⟩ := ih rest (bumpWord bow w) hrest_ne hrest_lt
            refine ⟨r, ?_, fun k => ?_⟩
            · simp only [bowLoop]
              rw [if_pos hw]
              exact hr
            · rw [hcount k, lookupCount_bumpWord, specTokens_cons_big hw,
                List.count_cons]
              by_cases hwk : w = k <;> simp [hwk] <;> omega
          · have hwne := hne w (List.mem_cons_self _ _)
            have hw0 : w.length ≠ 0 := length_ne_zero_of_ne_empty hwne
            have hw1 : w.length = 1 := by omega
            have hpw : (w.length == 1) = true := by simp [hw1]
            have htake : List.takeWhile (fun x => x.length == 1) (w :: rest)
                = w :: List.takeWhile (fun x => x.length == 1) rest :=
              List.takeWhile_cons_of_pos hpw
            have hdrop : List.dropWhile (fun x => x.length == 1) (w :: rest)
                = List.dropWhile (fun x => x.length == 1) rest :=
              List.dropWhile_cons_of_pos hpw
            have hrest'_ne :
                ∀ x ∈ List.dropWhile (fun x => x.length == 1) rest, x ≠ "" :=
              fun x hx => hrest_ne x ((List.dropWhile_sublist _).mem hx)
            have hrest'_lt :
                (List.dropWhile (fun x => x.length == 1) rest).length < fuel := by
              have hle :=
                (List.dropWhile_sublist (l := rest) (fun x => x.length == 1)).length_le
              simp only [List.length_cons] at hlt
              omega
            have hall : ∀ x ∈ List.takeWhile (fun x => x.length == 1) rest,
                x.length = 1 := fun x hx => by
              have := List.mem_takeWhile_imp hx
              simpa using this
            have hlen_concat :
                (concatAll (w :: List.takeWhile (fun x => x.length == 1) rest)).length
                  = 1 + (List.takeWhile (fun x => x.length == 1) rest).length := by
              rw [concatAll_length, List.map_cons]
              simp [hw1, sum_lengths_of_all_one _ hall]
            cases htwc : List.takeWhile (fun x => x.length == 1) rest with
            | nil =>
                obtain ⟨r, hr, hcount⟩ :=
                  ih (List.dropWhile (fun x => x.length == 1) rest)
                    (bumpWord bow w) hrest'_ne hrest'_lt
                rw [htwc] at hlen_concat
                have hiw1 :
                    (concatAll
                      (List.takeWhile (fun x => x.length == 1) (w :: rest))).length = 1 := by
                  rw [htake, htwc]
                  simpa using hlen_concat
                refine ⟨r, ?_, fun k => ?_⟩
                · simp only [bowLoop]
                  rw [if_neg hw, if_pos hiw1, htake, htwc, hdrop, concatAll_single]
                  exact hr
                · rw [hcount k, lookupCount_bumpWord, specTokens_cons_one hw1, htwc]
                  simp only [List.length_cons, List.length_nil, List.singleton_append]
                  norm_num
                  rw [List.count_cons]
                  by_cases hwk : w = k <;> simp [hwk] <;> omega
            | cons x xs =>
                obtain ⟨r, hr, hcount⟩ :=
                  ih (List.dropWhile (fun x => x.length == 1) rest)
                    bow hrest'_ne hrest'_lt
                rw [htwc] at hlen_concat
                have hiw2 :
                    (concatAll
                      (List.takeWhile (fun x => x.length == 1) (w :: rest))).length ≠ 1 := by
                  rw [htake, htwc, hlen_concat]
                  simp only [List.length_cons]
                  omega
                refine ⟨r, ?_, fun k => ?_⟩
                · simp only [bowLoop]
                  rw [if_neg hw, if_neg hiw2, hdrop]
                  exact hr
                · rw [hcount k, specTokens_cons_one hw1, htwc]
                  have hne1 : ¬ (w :: x :: xs).length = 1 := by
                    simp [List.length_cons]
                  rw [if_neg hne1]

theorem calc_score_eq (output source : String) (w : Nat × Nat × Nat)
    (h : source.length ≠ 0) :
    calculate_edit_distance output source w "score" =
      .ok (1 - pyMin (pyMax
        ((levDP w.1 w.2.1 w.2.2 output.data source.data : Rat)
          / (source.length : Rat)) 0) 1) := by
  simp [calculate_edit_distance, h]

theorem calc_distance_eq (output source : String) (w : Nat × Nat × Nat)
    (h : source.length ≠ 0) :
    calculate_edit_distance output source w "distance" =
      .ok ((levDP w.1 w.2.1 w.2.2 output.data source.data : Nat) : Rat) := by
  simp [calculate_edit_distance, h]

theorem score_bounds_aux (x : Rat) :
    0 ≤ 1 - pyMin (pyMax x 0) 1 ∧ 1 - pyMin (pyMax x 0) 1 ≤ 1 := by
  rw [pyMin_eq_min, pyMax_eq_max]
  constructor
  · have := min_le_right (max x 0) 1
    linarith
  · have h0 : (0 : Rat) ≤ min (max x 0) 1 := le_min (le_max_right x 0) zero_le_one
    linarith

/-- C1: the claim says an empty `source` is handled explicitly and never
propagates an arithmetic fault.  The code instead evaluates
`distance / len(source)` before either return branch, so for every
`output`, every weight triple and both valid modes it raises
`ZeroDivisionError` — the fault the claim says is never propagated.
This theorem evaluates the code at the failing inputs. -/
theorem calculate_edit_distance_empty_source_raises (output : String)
    (w : Nat × Nat × Nat) (ra : String) (hra : ra = "score" ∨ ra = "distance") :
    calculate_edit_distance output "" w ra = .error .zeroDivisionError := by
  rcases hra with h | h <;> subst h <;> simp [calculate_edit_distance]

/-- Witness for C1 at `output = "abc"`, `return_as = "score"`. -/
theorem calculate_edit_distance_empty_source_raises_witness :
    ("score" = "score" ∨ "score" = "distance") ∧
      calculate_edit_distance "abc" "" (2, 1, 1) "score" = .error .zeroDivisionError :=
  ⟨Or.inl rfl,
    calculate_edit_distance_empty_source_raises "abc" (2, 1, 1) "score" (Or.inl rfl)⟩

/-- C2: for every punctuation classifier accepting `-` and `'` (as the
real Unicode table does) and every input text, `bag_of_words` lower-cases,
strips punctuation except `-` and `'`, splits on whitespace, and counts
exactly the token stream of the spec's run-merge rule: every fragment of
length > 1 once, a maximal run of length-1 fragments once iff it consists
of exactly one fragment.  In particular the spec's concrete example maps
to exactly the expected dictionary. -/
theorem bag_of_words_run_merge :
    (∀ (catP : Char → Bool) (text : String),
        catP '-' = true → catP '\x27' = true →
        ∃ bow, bag_of_words catP text = .ok (some bow) ∧
          ∀ k, lookupCount bow k = (specTokens (cleanedWords catP text)).count k) ∧
    bag_of_words asciiP "Hello my name is H a r p e r, what\x27s your name?" =
      .ok (some [("hello", 1), ("my", 1), ("name", 2), ("is", 1),
        ("what\x27s", 1), ("your", 1)]) := by
  constructor
  · intro catP text h1 h2
    have hstrip := remove_punctuation_strip catP (pyLowerStr text) h1 h2
    obtain ⟨r, hr, hcount⟩ := bowLoop_run
      ((pySplit (stripPunct catP (pyLowerStr text)).data).length + 1)
      (pySplit (stripPunct catP (pyLowerStr text)).data) []
      (fun _ hw => pySplit_ne_empty hw) (by omega)
    refine ⟨r, ?_, ?_⟩
    · simp only [bag_of_words, hstrip]
      rw [hr]
    · intro k
      rw [hcount k]
      simp [lookupCount, cleanedWords]
  · decide

/-- Witness for C2's universal part at `asciiP` and the text `"a b"`. -/
theorem bag_of_words_run_merge_witness :
    asciiP '-' = true ∧ asciiP '\x27' = true ∧
      ∃ bow, bag_of_words asciiP "a b" = .ok (some bow) ∧
        ∀ k, lookupCount bow k = (specTokens (cleanedWords asciiP "a b")).count k :=
  ⟨by decide, by decide, bag_of_words_run_merge.1 asciiP "a b" (by decide) (by decide)⟩

/-- C3 counterexample: at `return_as = "bogus"` the raised `ValueError`
carries the fixed message, which does not contain the offending value
`"bogus"` anywhere — refuting the claim that the message names the
offending value. -/
theorem invalid_return_as_message_cex :
    calculate_edit_distance "a" "b" (2, 1, 1) "bogus"
        = .error (.valueError invalidReturnMsg) ∧
      occursIn "bogus".data invalidReturnMsg.data = false :=
  ⟨by decide, by decide⟩

/-- C3 (amended): for every `return_as` outside `{score, distance}` —
and any strings, even an empty `source` that would otherwise divide by
zero, so the check precedes the distance computation — the call fails
with a `ValueError` whose (constant) message enumerates the valid set
`{score, distance}`, though it does not name the offending value. -/
theorem invalid_return_as_raises (output source : String) (w : Nat × Nat × Nat)
    (ra : String) (h : ra ∉ ["score", "distance"]) :
    calculate_edit_distance output source w ra = .error (.valueError invalidReturnMsg) ∧
      occursIn "score".data invalidReturnMsg.data = true ∧
      occursIn "distance".data invalidReturnMsg.data = true := by
  refine ⟨?_, by decide, by decide⟩
  simp [calculate_edit_distance, h]

/-- Witness for C3's amended theorem at `return_as = "bogus"` with an
empty source. -/
theorem invalid_return_as_raises_witness :
    ("bogus" ∉ ["score", "distance"]) ∧
      (calculate_edit_distance "x" "" (2, 1, 1) "bogus"
          = .error (.valueError invalidReturnMsg) ∧
        occursIn "score".data invalidReturnMsg.data = true ∧
        occursIn "distance".data invalidReturnMsg.data = true) :=
  ⟨by decide, invalid_return_as_raises "x" "" (2, 1, 1) "bogus" (by decide)⟩

/-- C4 counterexample: with an empty `source`, distance mode does not
return the raw distance — it raises `ZeroDivisionError`, because the
normalization division happens before the mode branch. -/
theorem distance_mode_empty_source_cex :
    calculate_edit_distance "a" "" (2, 1, 1) "distance" = .error .zeroDivisionError ∧
      (calculate_edit_distance "a" "" (2, 1, 1) "distance").isOk = false :=
  ⟨by decide, by decide⟩

/-- C4 (amended): for every `output`, every non-empty `source` and every
non-negative weight triple, distance mode returns the raw (unclamped,
unnormalized) minimum weighted edit distance, untouched by the score
path's normalization and clamping. -/
theorem distance_mode_returns_raw_distance (output source : String)
    (w : Nat × Nat × Nat) (h : source ≠ "") :
    calculate_edit_distance output source w "distance" =
      .ok ((levRec w.1 w.2.1 w.2.2 output.data source.data : Nat) : Rat) := by
  rw [calc_distance_eq output source w (length_ne_zero_of_ne_empty h),
    levDP_eq_levRec]

/-- Witness for C4's amended theorem at `("a", "ab")`. -/
theorem distance_mode_returns_raw_distance_witness :
    ("ab" : String) ≠ "" ∧
      calculate_edit_distance "a" "ab" (2, 1, 1) "distance" =
        .ok ((levRec 2 1 1 "a".data "ab".data : Nat) : Rat) :=
  ⟨by decide, distance_mode_returns_raw_distance "a" "ab" (2, 1, 1) (by decide)⟩

/-- C5 counterexample: with both strings empty the score call returns no
value at all — it raises `ZeroDivisionError` — so boundedness does not
hold "for all inputs" as claimed. -/
theorem boundedness_empty_source_cex :
    calculate_edit_distance "" "" (2, 1, 1) "score" = .error .zeroDivisionError ∧
      (calculate_edit_distance "" "" (2, 1, 1) "score").isOk = false :=
  ⟨by decide, by decide⟩

/-- C5 (amended): for every `output`, every non-empty `source` and every
non-negative weight triple, score mode returns a value in `[0, 1]` and
distance mode returns a non-negative value. -/
theorem score_bounded_distance_nonneg (output source : String)
    (w : Nat × Nat × Nat) (h : source ≠ "") :
    (∃ q, calculate_edit_distance output source w "score" = .ok q ∧
      0 ≤ q ∧ q ≤ 1) ∧
    (∃ q, calculate_edit_distance output source w "distance" = .ok q ∧ 0 ≤ q) := by
  have hlen := length_ne_zero_of_ne_empty h
  constructor
  · exact ⟨_, calc_score_eq output source w hlen,
      (score_bounds_aux _).1, (score_bounds_aux _).2⟩
  · exact ⟨_, calc_distance_eq output source w hlen, by positivity⟩

/-- Witness for C5's amended theorem at `("ab", "c")`. -/
theorem score_bounded_distance_nonneg_witness :
    ("c" : String) ≠ "" ∧
      ((∃ q, calculate_edit_distance "ab" "c" (2, 1, 1) "score" = .ok q ∧
        0 ≤ q ∧ q ≤ 1) ∧
      (∃ q, calculate_edit_distance "ab" "c" (2, 1, 1) "distance" = .ok q ∧ 0 ≤ q)) :=
  ⟨by decide, score_bounded_distance_nonneg "ab" "c" (2, 1, 1) (by decide)⟩

/-- C6: for every non-empty string `x` and every weight triple,
`calculate_edit_distance(x, x, return_as="score")` is exactly `1`:
the distance of a string to itself is `0`, the clamped ratio is `0`,
and the score is `1 - 0`. -/
theorem identity_score_one (x : String) (w : Nat × Nat × Nat) (h : x ≠ "") :
    calculate_edit_distance x x w "score" = .ok 1 := by
  rw [calc_score_eq x x w (length_ne_zero_of_ne_empty h), levDP_eq_levRec,
    levRec_self]
  norm_num [pyMin, pyMax]

/-- Witness for C6 at `x = "a"` with an asymmetric weight triple. -/
theorem identity_score_one_witness :
    ("a" : String) ≠ "" ∧ calculate_edit_distance "a" "a" (3, 4, 5) "score" = .ok 1 :=
  ⟨by decide, identity_score_one "a" (3, 4, 5) (by decide)⟩

/-- C8: every key of a successfully produced bag is non-empty, and is
either a single character (one run-merge decision over a run of length
one) or one whole whitespace-split fragment of length > 1 of the
normalized text — never a concatenation spanning several decisions. -/
theorem bag_of_words_key_invariant (catP : Char → Bool) (text : String)
    (bow : List (String × Nat)) (k : String) (v : Nat)
    (hok : bag_of_words catP text = .ok (some bow)) (hkv : (k, v) ∈ bow) :
    k ≠ "" ∧ (k.length = 1 ∨ (1 < k.length ∧ k ∈ cleanedWords catP text)) := by
  by_cases hcp : catP '-' = true ∧ catP '\x27' = true
  · obtain ⟨h1, h2⟩ := hcp
    have hstrip := remove_punctuation_strip catP (pyLowerStr text) h1 h2
    simp only [bag_of_words, hstrip, Except.ok.injEq] at hok
    have hinv := bowLoop_keys _ _ _ _ hok k v hkv
    rcases hinv with ⟨v', hv⟩ | hone | ⟨hl, hm⟩
    · simp at hv
    · refine ⟨?_, Or.inl hone⟩
      intro hke
      rw [hke] at hone
      simp at hone
    · refine ⟨?_, Or.inr ⟨hl, hm⟩⟩
      intro hke
      rw [hke] at hl
      simp at hl
  · have herr := remove_punctuation_excludeList_error catP (pyLowerStr text) hcp
    simp [bag_of_words, herr] at hok

/-- Witness for C8 at `asciiP`, the text `"ab c"`, and its first key. -/
theorem bag_of_words_key_invariant_witness :
    bag_of_words asciiP "ab c" = .ok (some [("ab", 1), ("c", 1)]) ∧
      (("ab", 1) ∈ [(("ab" : String), 1), ("c", 1)]) ∧
      ("ab" ≠ "" ∧ ("ab" : String).length = 1 ∨
        (1 < ("ab" : String).length ∧ "ab" ∈ cleanedWords asciiP "ab c")) := by
  refine ⟨by decide, by decide, ?_⟩
  have := bag_of_words_key_invariant asciiP "ab c" [("ab", 1), ("c", 1)] "ab" 1
    (by decide) (by decide)
  rcases this.2 with h | h
  · exact Or.inl ⟨this.1, h⟩
  · exact Or.inr h

/-- C9: `bag_of_words` terminates on every input (the fuelled loop never
returns `none`), because Python's separator-less `str.split` — modelled
by `pySplit` — yields only non-empty fragments, so every loop iteration
consumes at least one fragment and the stuck empty-fragment branch is
unreachable. -/
theorem bag_of_words_terminates (catP : Char → Bool) (text : String) :
    bag_of_words catP text ≠ .ok none ∧
      ∀ (l : List Char) (w : String), w ∈ pySplit l → w ≠ "" := by
  constructor
  · cases hrp : remove_punctuation catP (pyLowerStr text) (some excludeList) with
    | error e =>
        simp [bag_of_words, hrp]
    | ok cleaned =>
        obtain ⟨r, hr, _⟩ := bowLoop_run ((pySplit cleaned.data).length + 1)
          (pySplit cleaned.data) [] (fun _ hw => pySplit_ne_empty hw) (by omega)
        simp [bag_of_words, hrp, hr]
  · exact fun _ w hw => pySplit_ne_empty hw

/-- Witness for C9 at `asciiP`, the text `"a  b"`, and the split
fragment `"ab"` of `['a', 'b']`. -/
theorem bag_of_words_terminates_witness :
    bag_of_words asciiP "a  b" ≠ .ok none ∧ ("ab" : String) ≠ "" :=
  ⟨(bag_of_words_terminates asciiP "a  b").1,
    (bag_of_words_terminates asciiP "a  b").2 ['a', 'b'] "ab" (by decide)⟩

/-- C10: `remove_punctuation` raises `KeyError` whenever the exclusion
list contains a character outside the punctuation table (for any
classifier and string), rather than silently ignoring it; and with
`None` or an empty exclusion list it strips exactly the punctuation
characters, applying no exclusions. -/
theorem remove_punctuation_exclusions :
    (∀ (catP : Char → Bool) (s : String) (excl : List Char) (c : Char),
        c ∈ excl → catP c = false →
        remove_punctuation catP s (some excl) = .error .keyError) ∧
    (∀ (catP : Char → Bool) (s : String),
        remove_punctuation catP s none = .ok ⟨s.data.filter fun c => !(catP c)⟩ ∧
        remove_punctuation catP s (some []) =
          .ok ⟨s.data.filter fun c => !(catP c)⟩) := by
  constructor
  · intro catP s excl c hc hcat
    have hdel := delExcls_keyError catP excl [] c hc hcat
    simp [remove_punctuation, hdel]
  · exact fun catP s => remove_punctuation_no_excl catP s

/-- Witness for C10 at `asciiP`, the dollar sign (a currency symbol,
category Sc, not punctuation) and the string `"a.b"`. -/
theorem remove_punctuation_exclusions_witness :
    '$' ∈ ['$'] ∧ asciiP '$' = false ∧
      remove_punctuation asciiP "a.b" (some ['$']) = .error .keyError :=
  ⟨by decide, by decide,
    remove_punctuation_exclusions.1 asciiP "a.b" ['$'] '$' (by decide) (by decide)⟩

section

attribute [local semireducible] Rat.mul Rat.inv Rat.add Rat.sub
set_option maxRecDepth 10000

/-- C7: with default weights and score mode, the spec's two concrete
scenarios: the word-shredded output scores exactly 0.75 (so rounds to
0.75 at two decimals) against the reference, and the truncated output
scores exactly 0 (rounds to 0.0). -/
theorem edit_distance_scenarios :
    (calculate_edit_distance "I like p i z z a . I like bagles."
        "I like pizza. I like bagels." (2, 1, 1) "score").map round2 = .ok (3 / 4) ∧
    (calculate_edit_distance "I like pizza."
        "I like pizza. I like bagels." (2, 1, 1) "score").map round2 = .ok 0 :=
  ⟨by decide, by decide⟩

end
